import Mathlib

/-!
Verification of the `sff` (semantic file finder) pipeline, a shallow embedding
of `src/main.rs` and `src/cli.rs`.

Modelling conventions:
- Machine floats (`f32`) are modelled by `ℚ`.  A possibly-NaN `f32` is modelled
  by `Option ℚ` (with `none` playing the role of NaN) where the NaN behaviour of
  a comparison matters.
- `f32::sqrt` is modelled by an abstract function `sqrt : ℚ → ℚ`; theorems that
  depend on its behaviour take the characterising hypothesis they need.
- The opaque embedding model (`model2vec` `StaticModel.encode`) is modelled by an
  arbitrary function `embed : String → List ℚ` applied to each text of a batch
  (the provider contract: one index-aligned embedding per input text).
- Filesystem directory entries are modelled by a list of `FileEntry` records;
  file reads are modelled as always succeeding (read failures are skipped
  non-fatally by the code and are irrelevant to the claims below).
- A Rust panic (ndarray `dot` on shape mismatch aborts the process) is modelled
  by `Option`/an explicit abort outcome.
-/

namespace Sff

/-- main.rs line 20: how many text chunks to embed in one go per parallel task. -/
def CHUNK_EMBEDDING_BATCH_SIZE : Nat := 128

/-- main.rs line 21: how many words per text chunk. -/
def WORD_CHUNK_SIZE : Nat := 20

/-- main.rs lines 23-27: a chunk of text paired with the path of the file it
came from (paths modelled as strings). -/
structure TextChunk where
  path : String
  text : String
deriving DecidableEq

/-- main.rs lines 29-33: a scored chunk.  The score is an `f32` that, for the
values produced by this pipeline, is an ordinary number; it is modelled by `ℚ`
(the comparator of line 191 is modelled separately on `Option ℚ` to capture its
NaN branch). -/
structure SearchResult where
  score : ℚ
  path : String
  chunk : String
deriving DecidableEq

/-- A directory entry as seen by the WalkDir loop of main.rs lines 76-99:
whether it is a regular file, its extension (`Path::extension`, `none` when the
file name has no extension), its content and its path. -/
structure FileEntry where
  is_file : Bool
  ext : Option String
  content : String
  path : String

/-- cli.rs lines 41-43: the declared default of the extension option (flags -e
and --extension). -/
def defaultExtensions : List String := ["txt", "md", "mdx", "org"]

/-- main.rs lines 85-98: the extension match deciding whether a file is read.
The source hardcodes the three literals `"txt" | "md" | "mdx"`; the parsed
`args.extension` list is never consulted anywhere in main.rs. -/
def extensionAccepted : Option String → Bool
  | some "txt" => true
  | some "md" => true
  | some "mdx" => true
  | _ => false

/-- Rust `str::split_whitespace`, accumulator version: split on whitespace
runs, yielding the maximal non-whitespace words, never an empty word.
The first argument is the remaining input, the second the current word
(reversed). -/
def splitWordsAux : List Char → List Char → List String
  | [], acc => if acc.isEmpty then [] else [String.mk acc.reverse]
  | c :: cs, acc =>
    if c.isWhitespace then
      (if acc.isEmpty then splitWordsAux cs [] else String.mk acc.reverse :: splitWordsAux cs [])
    else splitWordsAux cs (c :: acc)

/-- main.rs line 101: `content.split_whitespace().collect()`. -/
def splitWhitespace (s : String) : List String := splitWordsAux s.toList []

/-- Rust `slice::chunks n` with an explicit fuel argument (the fuel is the
length of the list, so the recursion is structural and computable). -/
def chunksOfAux {α : Type} (n : Nat) : Nat → List α → List (List α)
  | _, [] => []
  | 0, _ :: _ => []
  | fuel + 1, x :: xs => (x :: xs).take n :: chunksOfAux n fuel ((x :: xs).drop n)

/-- Rust `slice::chunks n` (main.rs line 103 with n = WORD_CHUNK_SIZE and
line 162 with n = CHUNK_EMBEDDING_BATCH_SIZE): non-overlapping consecutive
slices of length n, the last possibly shorter.  Rust panics when n = 0; the
model returns [] there (both call sites pass a positive constant). -/
def chunksOf {α : Type} (n : Nat) (l : List α) : List (List α) :=
  if n = 0 then [] else chunksOfAux n l.length l

/-- Rust `[&str]::join " "` (main.rs line 106). -/
def joinSpace : List String → String
  | [] => ""
  | [w] => w
  | w :: ws => w ++ " " ++ joinSpace ws

/-- main.rs lines 76-110: keep the regular files whose extension matches,
split each content into words, group the words into chunks of
WORD_CHUNK_SIZE, and join each group back with single spaces. -/
def readAndChunk (entries : List FileEntry) : List TextChunk :=
  ((entries.filter fun e => e.is_file).filter fun e => extensionAccepted e.ext).flatMap
    fun e =>
      (chunksOf WORD_CHUNK_SIZE (splitWhitespace e.content)).map
        fun ws => TextChunk.mk e.path (joinSpace ws)

theorem chunksOfAux_flatten {α : Type} {n : Nat} (hn : 0 < n) :
    ∀ (fuel : Nat) (l : List α), l.length ≤ fuel → (chunksOfAux n fuel l).flatten = l := by
  intro fuel
  induction fuel with
  | zero =>
    intro l hl
    cases l with
    | nil => rfl
    | cons x xs => simp at hl
  | succ fuel ih =>
    intro l hl
    cases l with
    | nil => rfl
    | cons x xs =>
      show ((x :: xs).take n :: chunksOfAux n fuel ((x :: xs).drop n)).flatten = x :: xs
      have hfuel : ((x :: xs).drop n).length ≤ fuel := by
        rw [List.length_drop, List.length_cons]
        simp only [List.length_cons] at hl
        omega
      rw [List.flatten_cons, ih _ hfuel, List.take_append_drop]

theorem chunksOfAux_length {α : Type} {n : Nat} (hn : 0 < n) :
    ∀ (fuel : Nat) (l : List α), l.length ≤ fuel →
      (chunksOfAux n fuel l).length = (l.length + n - 1) / n := by
  intro fuel
  induction fuel with
  | zero =>
    intro l hl
    cases l with
    | nil =>
      have h0 : (n - 1) / n = 0 := Nat.div_eq_of_lt (by omega)
      simp [chunksOfAux, h0]
    | cons x xs => simp at hl
  | succ fuel ih =>
    intro l hl
    cases l with
    | nil =>
      have h0 : (n - 1) / n = 0 := Nat.div_eq_of_lt (by omega)
      simp [chunksOfAux, h0]
    | cons x xs =>
      show ((x :: xs).take n :: chunksOfAux n fuel ((x :: xs).drop n)).length =
        ((x :: xs).length + n - 1) / n
      have hfuel : ((x :: xs).drop n).length ≤ fuel := by
        rw [List.length_drop, List.length_cons]
        simp only [List.length_cons] at hl
        omega
      rw [List.length_cons, ih _ hfuel]
      rw [List.length_drop, List.length_cons]
      have h1 : xs.length + 1 + n - 1 = xs.length + n := by omega
      rw [h1, Nat.add_div_right _ hn]
      rcases le_or_lt (xs.length + 1) n with hle | hlt
      · have h2 : xs.length + 1 - n = 0 := by omega
        rw [h2, Nat.div_eq_of_lt (by omega : xs.length < n),
          Nat.div_eq_of_lt (by omega : 0 + n - 1 < n)]
      · have h2 : xs.length + 1 - n + n - 1 = xs.length := by omega
        rw [h2]

theorem chunksOfAux_mem {α : Type} {n : Nat} (hn : 0 < n) :
    ∀ (fuel : Nat) (l : List α) (c : List α), c ∈ chunksOfAux n fuel l →
      c.length ≤ n ∧ c ≠ [] := by
  intro fuel
  induction fuel with
  | zero =>
    intro l c hc
    cases l with
    | nil => simp [chunksOfAux] at hc
    | cons x xs => simp [chunksOfAux] at hc
  | succ fuel ih =>
    intro l c hc
    cases l with
    | nil => simp [chunksOfAux] at hc
    | cons x xs =>
      have hc' : c ∈ (x :: xs).take n :: chunksOfAux n fuel ((x :: xs).drop n) := hc
      rcases List.mem_cons.mp hc' with hceq | hmem
      · subst hceq
        constructor
        · rw [List.length_take]
          omega
        · rw [Ne, List.take_eq_nil_iff]
          rintro (h | h)
          · omega
          · simp at h
      · exact ih _ _ hmem

theorem chunksOf_flatten {α : Type} {n : Nat} (hn : 0 < n) (l : List α) :
    (chunksOf n l).flatten = l := by
  rw [chunksOf, if_neg (Nat.pos_iff_ne_zero.mp hn)]
  exact chunksOfAux_flatten hn _ _ le_rfl

theorem chunksOf_length {α : Type} {n : Nat} (hn : 0 < n) (l : List α) :
    (chunksOf n l).length = (l.length + n - 1) / n := by
  rw [chunksOf, if_neg (Nat.pos_iff_ne_zero.mp hn)]
  exact chunksOfAux_length hn _ _ le_rfl

theorem chunksOf_mem {α : Type} {n : Nat} (hn : 0 < n) (l : List α) (c : List α)
    (hc : c ∈ chunksOf n l) : c.length ≤ n ∧ c ≠ [] := by
  rw [chunksOf, if_neg (Nat.pos_iff_ne_zero.mp hn)] at hc
  exact chunksOfAux_mem hn _ _ _ hc

theorem joinSpace_append :
    ∀ (a b : List String), a ≠ [] → b ≠ [] →
      joinSpace (a ++ b) = joinSpace a ++ " " ++ joinSpace b := by
  intro a
  induction a with
  | nil => intro b ha _; exact absurd rfl ha
  | cons x xs ih =>
    intro b _ hb
    cases xs with
    | nil =>
      cases b with
      | nil => exact absurd rfl hb
      | cons y ys => rfl
    | cons x' xs' =>
      show x ++ " " ++ joinSpace ((x' :: xs') ++ b) =
        (x ++ " " ++ joinSpace (x' :: xs')) ++ " " ++ joinSpace b
      rw [ih b (by simp) hb]
      simp [String.append_assoc]

theorem joinSpace_chunks :
    ∀ (cs : List (List String)), (∀ c ∈ cs, c ≠ []) →
      joinSpace (cs.map joinSpace) = joinSpace cs.flatten := by
  intro cs
  induction cs with
  | nil => intro _; rfl
  | cons c cs ih =>
    intro h
    cases cs with
    | nil => simp [joinSpace]
    | cons c' cs' =>
      have hc : c ≠ [] := h c (by simp)
      have hc' : c' ≠ [] := h c' (by simp)
      have hflat : (c' :: cs').flatten ≠ [] := by
        rw [List.flatten_cons]
        exact List.append_ne_nil_of_left_ne_nil hc' _
      calc joinSpace (List.map joinSpace (c :: c' :: cs'))
          = joinSpace c ++ " " ++ joinSpace (List.map joinSpace (c' :: cs')) := rfl
        _ = joinSpace c ++ " " ++ joinSpace (c' :: cs').flatten := by
            rw [ih (fun x hx => h x (by simp [hx]))]
        _ = joinSpace (c ++ (c' :: cs').flatten) :=
            (joinSpace_append c (c' :: cs').flatten hc hflat).symm
        _ = joinSpace (c :: c' :: cs').flatten :=
            (congrArg joinSpace (List.flatten_cons)).symm

/-- Claim C2: splitting a file content into whitespace-separated words and
grouping them with chunk size W = WORD_CHUNK_SIZE = 20 yields, for a word
sequence of length W·k + r (0 < r ≤ W), exactly k + 1 chunks (k chunks when
the length is exactly W·k); every chunk holds at most W words and at least one
word; the chunk word-slices concatenated in order give back the word sequence,
and the chunk texts joined with single spaces reconstruct the
whitespace-normalized form of the content; a content with zero words yields no
chunks. -/
theorem chunking_spec (content : String) (k r : Nat) :
    (((splitWhitespace content).length = WORD_CHUNK_SIZE * k + r → 0 < r →
        r ≤ WORD_CHUNK_SIZE →
        (chunksOf WORD_CHUNK_SIZE (splitWhitespace content)).length = k + 1) ∧
      ((splitWhitespace content).length = WORD_CHUNK_SIZE * k →
        (chunksOf WORD_CHUNK_SIZE (splitWhitespace content)).length = k)) ∧
    (∀ c ∈ chunksOf WORD_CHUNK_SIZE (splitWhitespace content),
      c.length ≤ WORD_CHUNK_SIZE ∧ 1 ≤ c.length) ∧
    (chunksOf WORD_CHUNK_SIZE (splitWhitespace content)).flatten =
      splitWhitespace content ∧
    joinSpace ((chunksOf WORD_CHUNK_SIZE (splitWhitespace content)).map joinSpace) =
      joinSpace (splitWhitespace content) ∧
    (splitWhitespace content = [] →
      chunksOf WORD_CHUNK_SIZE (splitWhitespace content) = []) := by
  have hW : 0 < WORD_CHUNK_SIZE := by decide
  refine ⟨⟨?_, ?_⟩, ?_, chunksOf_flatten hW _, ?_, ?_⟩
  · intro hlen hr1 hr2
    rw [chunksOf_length hW, hlen]
    rw [WORD_CHUNK_SIZE] at *
    have h1 : 20 * k + r + 20 - 1 = 20 * k + (r + 19) := by omega
    rw [h1, Nat.mul_add_div (by norm_num)]
    have h2 : r + 19 = r - 1 + 20 := by omega
    rw [h2, Nat.add_div_right _ (by norm_num),
      Nat.div_eq_of_lt (by omega : r - 1 < 20)]
  · intro hlen
    rw [chunksOf_length hW, hlen]
    rw [WORD_CHUNK_SIZE] at *
    have h1 : 20 * k + 20 - 1 = 20 * k + 19 := by omega
    rw [h1, Nat.mul_add_div (by norm_num), Nat.div_eq_of_lt (by norm_num : 19 < 20)]
    omega
  · intro c hc
    have h := chunksOf_mem hW _ c hc
    exact ⟨h.1, by cases c with | nil => exact absurd rfl h.2 | cons y ys => simp⟩
  · rw [joinSpace_chunks _ (fun c hc => (chunksOf_mem hW _ c hc).2),
      chunksOf_flatten hW]
  · intro h
    rw [h]
    rfl

/-- Witness for C2 at a concrete content of 3 = 20·0 + 3 words. -/
theorem chunking_spec_witness :
    (chunksOf WORD_CHUNK_SIZE (splitWhitespace "alpha  beta gamma ")).length = 0 + 1 :=
  (chunking_spec "alpha  beta gamma " 0 3).1.1 (by decide) (by decide) (by decide)

/-- Claim C1 (code bug): main.rs lines 82-98 match the extension against the
hardcoded literals txt, md, mdx only and never consult the configured
accepted-extension set of cli.rs lines 41-43 (default txt, md, mdx, org):
a regular file with extension org — in the default accepted set — is
silently skipped instead of being read and chunked, while a txt file is
chunked.  The model mirrors this: readAndChunk takes no extension-set
parameter because main.rs reads none. -/
theorem extension_filter_ignores_config :
    readAndChunk [FileEntry.mk true (some "org") "alpha beta" "/notes.org"] = [] ∧
    "org" ∈ defaultExtensions ∧
    extensionAccepted (some "org") = false ∧
    extensionAccepted (some "txt") = true ∧
    readAndChunk [FileEntry.mk true (some "txt") "alpha beta" "/notes.txt"] =
      [TextChunk.mk "/notes.txt" "alpha beta"] := by
  decide

/-- main.rs lines 160-170: the chunk texts are partitioned into batches of
CHUNK_EMBEDDING_BATCH_SIZE, each batch is sent to the provider's encode, and
the per-batch embedding lists are concatenated back in batch order (rayon's
flat_map/collect reassembles the output in the input order of the batches
regardless of which parallel task finishes first).  The provider encode is
modelled by its contract: one index-aligned embedding per input text, i.e.
List.map embed. -/
def encodeBatched (embed : String → List ℚ) (texts : List String) : List (List ℚ) :=
  ((chunksOf CHUNK_EMBEDDING_BATCH_SIZE texts).map fun batch => batch.map embed).flatten

/-- Claim C3: for any partition of the chunk texts into batches (in particular
the one of size at most CHUNK_EMBEDDING_BATCH_SIZE = 128 that the code builds),
concatenating the per-batch embeddings in batch order yields exactly one
embedding per chunk, and the embedding at index i is the embedding of the
chunk at index i; moreover the code's batching is such a partition. -/
theorem chunk_embeddings_aligned (embed : String → List ℚ) (texts : List String)
    (batches : List (List String)) (hpart : batches.flatten = texts)
    (_hsize : ∀ b ∈ batches, b.length ≤ CHUNK_EMBEDDING_BATCH_SIZE) :
    ((batches.map fun b => b.map embed).flatten).length = texts.length ∧
    (∀ i : Nat, ((batches.map fun b => b.map embed).flatten)[i]? =
      (texts[i]?).map embed) ∧
    encodeBatched embed texts = texts.map embed ∧
    (chunksOf CHUNK_EMBEDDING_BATCH_SIZE texts).flatten = texts ∧
    (∀ b ∈ chunksOf CHUNK_EMBEDDING_BATCH_SIZE texts,
      b.length ≤ CHUNK_EMBEDDING_BATCH_SIZE) := by
  have hB : 0 < CHUNK_EMBEDDING_BATCH_SIZE := by decide
  have key : (batches.map fun b => b.map embed).flatten = texts.map embed := by
    rw [← List.map_flatten, hpart]
  refine ⟨?_, ?_, ?_, chunksOf_flatten hB texts, ?_⟩
  · rw [key, List.length_map]
  · intro i
    rw [key, List.getElem?_map]
  · rw [encodeBatched, ← List.map_flatten, chunksOf_flatten hB]
  · intro b hb
    exact (chunksOf_mem hB texts b hb).1

/-- Witness for C3 at a concrete embed function, texts and partition. -/
theorem chunk_embeddings_aligned_witness :
    (([["a"], ["b", "c"]].map fun b => b.map (fun _ => [(1 : ℚ)])).flatten).length =
      ["a", "b", "c"].length :=
  (chunk_embeddings_aligned (fun _ => [(1 : ℚ)]) ["a", "b", "c"] [["a"], ["b", "c"]]
    (by decide) (by decide)).1

/-- ndarray dot product of two 1-d arrays (main.rs lines 245-247); ndarray
panics when the two arrays have different lengths, which the caller models
with an Option (see cosine_similarity). -/
def dot (a b : List ℚ) : ℚ := (List.zipWith (fun x y => x * y) a b).sum

/-- main.rs lines 244-253: cosine similarity.  The f32 values are modelled by
ℚ and f32::sqrt by an abstract sqrt : ℚ → ℚ; the norm of v is sqrt (dot v v).
The a.dot(&b) call panics (aborting the process) when the lengths differ:
that case is modelled by none.  Otherwise the code returns 0.0 when either
norm is exactly zero, and the quotient otherwise. -/
def cosine_similarity (sqrt : ℚ → ℚ) (a b : List ℚ) : Option ℚ :=
  if a.length = b.length then
    some (if sqrt (dot a a) = 0 ∨ sqrt (dot b b) = 0 then 0
      else dot a b / (sqrt (dot a a) * sqrt (dot b b)))
  else none

/-- Claim C4: for equal-length vectors the similarity score is
dot a b / (‖a‖ * ‖b‖) when both norms are non-zero, and is exactly 0 when
either norm is zero; in both cases the result is a defined value (never the
NaN that an unguarded 0/0 would produce). -/
theorem cosine_similarity_spec (sqrt : ℚ → ℚ) (a b : List ℚ)
    (hlen : a.length = b.length) :
    (sqrt (dot a a) ≠ 0 → sqrt (dot b b) ≠ 0 →
      cosine_similarity sqrt a b =
        some (dot a b / (sqrt (dot a a) * sqrt (dot b b)))) ∧
    ((sqrt (dot a a) = 0 ∨ sqrt (dot b b) = 0) →
      cosine_similarity sqrt a b = some 0) ∧
    cosine_similarity sqrt a b ≠ none := by
  refine ⟨?_, ?_, ?_⟩
  · intro ha hb
    rw [cosine_similarity, if_pos hlen, if_neg]
    rintro (h | h)
    · exact ha h
    · exact hb h
  · intro h
    rw [cosine_similarity, if_pos hlen, if_pos h]
  · rw [cosine_similarity, if_pos hlen]
    exact Option.some_ne_none _

/-- Witness for C4 with sqrt instantiated to the identity, a non-degenerate
pair and a zero-norm pair. -/
theorem cosine_similarity_spec_witness :
    cosine_similarity (fun x => x) [(1 : ℚ)] [(1 : ℚ)] =
      some (dot [(1 : ℚ)] [(1 : ℚ)] /
        ((fun x : ℚ => x) (dot [(1 : ℚ)] [(1 : ℚ)]) *
          (fun x : ℚ => x) (dot [(1 : ℚ)] [(1 : ℚ)]))) ∧
    cosine_similarity (fun x => x) [(0 : ℚ)] [(1 : ℚ)] = some 0 :=
  ⟨(cosine_similarity_spec (fun x => x) [(1 : ℚ)] [(1 : ℚ)] rfl).1
      (by norm_num [dot]) (by norm_num [dot]),
    (cosine_similarity_spec (fun x => x) [(0 : ℚ)] [(1 : ℚ)] rfl).2.1
      (Or.inl (by norm_num [dot]))⟩

/-- f32 partial_cmp on scores, with a possibly-NaN f32 modelled as Option ℚ
(none plays NaN): the result is none exactly when either operand is NaN,
otherwise the total order on the numbers. -/
def partialCmpQ : Option ℚ → Option ℚ → Option Ordering
  | some x, some y => some (compare x y)
  | _, _ => none

/-- main.rs line 191, the sort comparator
(a, b) => b.score.partial_cmp(&a.score).unwrap_or(Equal), applied to the two
scores: descending by score, with any non-comparable (NaN-involving) pair
collapsed to Equal instead of failing. -/
def scoreCmp (a b : Option ℚ) : Ordering := (partialCmpQ b a).getD Ordering.eq

/-- main.rs line 191: par_sort_unstable_by with the comparator above, modelled
as a comparison sort in which element a may precede element b exactly when the
comparator does not order a after b.  The scores the pipeline feeds in are
ordinary numbers, hence the some wrappers. -/
def sortResults (rs : List SearchResult) : List SearchResult :=
  rs.mergeSort fun a b => decide (scoreCmp (some a.score) (some b.score) ≠ Ordering.gt)

theorem scoreCmp_some_some (x y : ℚ) : scoreCmp (some x) (some y) = compare y x := rfl

theorem sortResults_le_iff (a b : SearchResult) :
    (decide (scoreCmp (some a.score) (some b.score) ≠ Ordering.gt) = true) ↔
      b.score ≤ a.score := by
  rw [decide_eq_true_iff, scoreCmp_some_some, Ne, compare_gt_iff_gt, not_lt]

theorem sortResults_sorted (rs : List SearchResult) :
    List.Pairwise (fun a b : SearchResult => b.score ≤ a.score) (sortResults rs) := by
  have h := @List.sorted_mergeSort SearchResult
    (fun a b : SearchResult =>
      decide (scoreCmp (some a.score) (some b.score) ≠ Ordering.gt))
    (fun a b c hab hbc =>
      (sortResults_le_iff a c).mpr
        (le_trans ((sortResults_le_iff b c).mp hbc) ((sortResults_le_iff a b).mp hab)))
    (fun a b => by
      rcases le_total a.score b.score with h | h
      · rw [Bool.or_eq_true]
        exact Or.inr ((sortResults_le_iff b a).mpr h)
      · rw [Bool.or_eq_true]
        exact Or.inl ((sortResults_le_iff a b).mpr h))
    rs
  exact h.imp fun hab => (sortResults_le_iff _ _).mp hab

theorem sortResults_perm (rs : List SearchResult) : (sortResults rs).Perm rs :=
  List.mergeSort_perm rs _

/-- Claim C5: the ranked output is non-increasing in score, and the comparator
of main.rs line 191 is total and never fails: it returns an Ordering for every
pair of scores, any pair involving NaN is treated as equal, and whenever it
orders a pair strictly one way it orders the swapped pair strictly the other
way. -/
theorem ranking_order_spec :
    (∀ x y : Option ℚ, x = none ∨ y = none → scoreCmp x y = Ordering.eq) ∧
    (∀ x y : Option ℚ, scoreCmp x y = Ordering.gt → scoreCmp y x = Ordering.lt) ∧
    (∀ rs : List SearchResult,
      List.Pairwise (fun a b : SearchResult => b.score ≤ a.score) (sortResults rs)) := by
  refine ⟨?_, ?_, sortResults_sorted⟩
  · rintro x y (rfl | rfl)
    · cases y <;> rfl
    · cases x <;> rfl
  · intro x y h
    cases x with
    | none => cases y <;> simp [scoreCmp, partialCmpQ] at h
    | some a =>
      cases y with
      | none => simp [scoreCmp, partialCmpQ] at h
      | some b =>
        rw [scoreCmp_some_some, compare_gt_iff_gt] at h
        rw [scoreCmp_some_some, compare_lt_iff_lt]
        exact h

/-- Witness for C5: the comparator at a NaN pair and at a strict pair, and the
sort at a concrete two-element list. -/
theorem ranking_order_spec_witness :
    scoreCmp none (some 1) = Ordering.eq ∧
    scoreCmp (some 2) (some 1) = Ordering.lt ∧
    List.Pairwise (fun a b : SearchResult => b.score ≤ a.score)
      (sortResults [SearchResult.mk 1 "a.txt" "t", SearchResult.mk 2 "b.txt" "u"]) :=
  ⟨ranking_order_spec.1 none (some 1) (Or.inl rfl),
    ranking_order_spec.2.1 (some 1) (some 2) (by decide),
    ranking_order_spec.2.2 _⟩

/-- main.rs lines 221-231: the presentation loop visits
results.iter_mut().take(args.limit) — the first limit ranked results, in rank
order, with no re-sorting or re-scoring (the in-loop mutation only truncates
the displayed text, a presentation concern). -/
def selectTop (limit : Nat) (rs : List SearchResult) : List SearchResult :=
  rs.take limit

/-- Claim C6: selection returns exactly the first min(L, n) ranked elements
unchanged and in order; L ≥ n returns the whole sequence and L = 0 returns the
empty selection. -/
theorem selection_spec (rs : List SearchResult) (L : Nat) :
    (selectTop L rs).length = min L rs.length ∧
    (∀ i : Nat, i < L → (selectTop L rs)[i]? = rs[i]?) ∧
    (rs.length ≤ L → selectTop L rs = rs) ∧
    selectTop 0 rs = [] := by
  refine ⟨List.length_take L rs, ?_, ?_, List.take_zero rs⟩
  · intro i hi
    rw [selectTop, List.getElem?_take, if_pos hi]
  · intro h
    exact List.take_of_length_le h

/-- Witness for C6 at a concrete ranked list and limits. -/
theorem selection_spec_witness :
    (0 < 2 → (selectTop 2 [SearchResult.mk 1 "a" "t"])[0]? =
      [SearchResult.mk 1 "a" "t"][0]?) ∧
    selectTop 2 [SearchResult.mk 1 "a" "t"] = [SearchResult.mk 1 "a" "t"] ∧
    selectTop 0 [SearchResult.mk 1 "a" "t"] = [] :=
  ⟨fun h => (selection_spec [SearchResult.mk 1 "a" "t"] 2).2.1 0 h,
    (selection_spec [SearchResult.mk 1 "a" "t"] 2).2.2.1 (by decide),
    (selection_spec [SearchResult.mk 1 "a" "t"] 0).2.2.2⟩

/-- main.rs lines 176-189: score every chunk embedding against the query
embedding, keeping each chunk's path and text.  The ndarray dot inside
cosine_similarity panics — aborting the whole run — on a dimensionality
mismatch, so the stage as a whole is an Option: none models the abort, in
which no partial results exist. -/
def scoreAll (sqrt : ℚ → ℚ) (queryEmb : List ℚ) (chunkEmbs : List (List ℚ))
    (chunks : List TextChunk) : Option (List SearchResult) :=
  (chunkEmbs.zip chunks).mapM fun p =>
    (cosine_similarity sqrt queryEmb p.1).map fun s =>
      SearchResult.mk s p.2.path p.2.text

/-- The four outcomes of a run of main (main.rs lines 68-242) that the claims
distinguish: the early successful exit printing that no text files were found
(lines 119-125), the process abort from a panic on an embedding-dimensionality
mismatch, the table of the top results (lines 210-232), and the
"No matches found." branch (line 234). -/
inductive RunOutcome where
  | noFiles : RunOutcome
  | abortDimMismatch : RunOutcome
  | table (shown : List SearchResult) : RunOutcome
  | noMatches : RunOutcome
deriving DecidableEq

/-- The orchestration of main.rs lines 68-242: discover and chunk files; exit
early when no chunks exist; embed the query and the chunk batches; score every
chunk against the query (aborting on a dimensionality mismatch); sort by
descending score; print the table of the first limit results, or
"No matches found." when the result list is empty. -/
def runSearch (embed : String → List ℚ) (sqrt : ℚ → ℚ) (query : String)
    (limit : Nat) (entries : List FileEntry) : RunOutcome :=
  if (readAndChunk entries).isEmpty then RunOutcome.noFiles
  else
    match scoreAll sqrt (embed query)
        (encodeBatched embed ((readAndChunk entries).map fun c => c.text))
        (readAndChunk entries) with
    | none => RunOutcome.abortDimMismatch
    | some scored =>
      if (sortResults scored).isEmpty then RunOutcome.noMatches
      else RunOutcome.table (selectTop limit (sortResults scored))

theorem encodeBatched_eq_map (embed : String → List ℚ) (texts : List String) :
    encodeBatched embed texts = texts.map embed := by
  have hB : 0 < CHUNK_EMBEDDING_BATCH_SIZE := by decide
  rw [encodeBatched, ← List.map_flatten, chunksOf_flatten hB]

theorem mapM'_option_none {α β : Type} (f : α → Option β) :
    ∀ l : List α, (∃ a ∈ l, f a = none) → List.mapM' f l = none := by
  intro l
  induction l with
  | nil =>
    rintro ⟨a, ha, _⟩
    simp at ha
  | cons x xs ih =>
    rintro ⟨a, ha, hfa⟩
    show (f x >>= fun y => List.mapM' f xs >>= fun ys => pure (y :: ys)) = none
    rcases List.mem_cons.mp ha with rfl | hmem
    · rw [hfa]
      rfl
    · cases hfx : f x with
      | none => rfl
      | some y => simp [ih ⟨a, hmem, hfa⟩]

theorem mapM'_option_length {α β : Type} (f : α → Option β) :
    ∀ l : List α, (∀ a ∈ l, (f a).isSome) →
      ∃ ys : List β, List.mapM' f l = some ys ∧ ys.length = l.length := by
  intro l
  induction l with
  | nil => exact fun _ => ⟨[], rfl, rfl⟩
  | cons x xs ih =>
    intro h
    obtain ⟨ys, hys, hlen⟩ := ih fun a ha => h a (List.mem_cons_of_mem x ha)
    cases hfx : f x with
    | none => exact absurd (hfx ▸ h x (List.mem_cons_self x xs)) (by simp)
    | some y =>
      refine ⟨y :: ys, ?_, by simp [hlen]⟩
      show (f x >>= fun y => List.mapM' f xs >>= fun ys => pure (y :: ys)) = some (y :: ys)
      rw [hfx, hys]
      rfl

theorem zip_map_self {α β : Type} (f : α → β) (l : List α) :
    (l.map f).zip l = l.map fun a => (f a, a) :=
  calc (l.map f).zip l = (l.map f).zip (l.map id) := by rw [List.map_id]
    _ = l.map fun a => (f a, id a) := List.zip_map' f id l
    _ = l.map fun a => (f a, a) := rfl

/-- Claim C7: a dimensionality mismatch between the query embedding and a chunk
embedding makes the scoring stage abort the whole run (the modelled ndarray
panic) with no partial results; in the full pipeline the run ends in the abort
outcome. -/
theorem dimension_mismatch_aborts :
    (∀ (sqrt : ℚ → ℚ) (queryEmb : List ℚ) (chunkEmbs : List (List ℚ))
        (chunks : List TextChunk),
      (∃ p ∈ chunkEmbs.zip chunks, p.1.length ≠ queryEmb.length) →
      scoreAll sqrt queryEmb chunkEmbs chunks = none) ∧
    (∀ (embed : String → List ℚ) (sqrt : ℚ → ℚ) (query : String) (limit : Nat)
        (entries : List FileEntry),
      (∃ c ∈ readAndChunk entries, (embed c.text).length ≠ (embed query).length) →
      runSearch embed sqrt query limit entries = RunOutcome.abortDimMismatch) := by
  have habort : ∀ (sqrt : ℚ → ℚ) (queryEmb : List ℚ) (chunkEmbs : List (List ℚ))
      (chunks : List TextChunk),
      (∃ p ∈ chunkEmbs.zip chunks, p.1.length ≠ queryEmb.length) →
      scoreAll sqrt queryEmb chunkEmbs chunks = none := by
    intro sqrt queryEmb chunkEmbs chunks h
    obtain ⟨p, hp, hlen⟩ := h
    rw [scoreAll, ← List.mapM'_eq_mapM]
    apply mapM'_option_none
    refine ⟨p, hp, ?_⟩
    have hcos : cosine_similarity sqrt queryEmb p.1 = none := by
      rw [cosine_similarity, if_neg fun hh => hlen hh.symm]
    rw [hcos]
    rfl
  refine ⟨habort, ?_⟩
  intro embed sqrt query limit entries h
  obtain ⟨c, hc, hlen⟩ := h
  have hne : readAndChunk entries ≠ [] := fun hnil => by simp [hnil] at hc
  have hempty : (readAndChunk entries).isEmpty = false :=
    List.isEmpty_eq_false.mpr hne
  have hmem : (embed c.text, c) ∈
      (((readAndChunk entries).map fun ch => ch.text).map embed).zip
        (readAndChunk entries) := by
    rw [List.map_map]
    have : ((readAndChunk entries).map (embed ∘ fun ch => ch.text)).zip
        (readAndChunk entries) =
        (readAndChunk entries).map fun ch => ((embed ∘ fun x => x.text) ch, ch) :=
      zip_map_self _ _
    rw [this]
    exact List.mem_map.mpr ⟨c, hc, rfl⟩
  have hscore : scoreAll sqrt (embed query)
      (encodeBatched embed ((readAndChunk entries).map fun ch => ch.text))
      (readAndChunk entries) = none := by
    rw [encodeBatched_eq_map]
    exact habort _ _ _ _ ⟨(embed c.text, c), hmem, hlen⟩
  rw [runSearch, hempty]
  simp only [Bool.false_eq_true, if_false]
  rw [hscore]

/-- Witness for C7: a two-dimensional chunk embedding against a one-dimensional
query embedding. -/
theorem dimension_mismatch_aborts_witness :
    scoreAll (fun x => x) [(1 : ℚ)] [[(1 : ℚ), 0]] [TextChunk.mk "a.txt" "t"] = none :=
  dimension_mismatch_aborts.1 (fun x => x) [(1 : ℚ)] [[(1 : ℚ), 0]]
    [TextChunk.mk "a.txt" "t"]
    ⟨([(1 : ℚ), 0], TextChunk.mk "a.txt" "t"), by decide, by decide⟩

/-- Claim C8: when discovery and chunking produce zero chunks, the run ends at
once in the successful no-files outcome — for every embedding provider and
sqrt whatsoever, so the model-loading, embedding, ranking and selection stages
can have no effect on the run. -/
theorem empty_chunks_early_exit (embed : String → List ℚ) (sqrt : ℚ → ℚ)
    (query : String) (limit : Nat) (entries : List FileEntry)
    (h : readAndChunk entries = []) :
    runSearch embed sqrt query limit entries = RunOutcome.noFiles := by
  rw [runSearch, h]
  rfl

/-- Witness for C8 on an empty directory. -/
theorem empty_chunks_early_exit_witness :
    runSearch (fun _ => [(1 : ℚ)]) (fun x => x) "query" 10 [] = RunOutcome.noFiles :=
  empty_chunks_early_exit (fun _ => [(1 : ℚ)]) (fun x => x) "query" 10 [] rfl

/-- Claim C9: a run that extracts at least one chunk, with an embedding
provider of fixed dimensionality, scores every chunk (no filtering by score or
threshold), sorts the scored chunks into a score-descending permutation of
exactly the same length, and always ends in the table outcome — never in the
"No matches found." branch. -/
theorem results_cover_all_chunks (embed : String → List ℚ) (sqrt : ℚ → ℚ)
    (query : String) (limit : Nat) (entries : List FileEntry) (D : Nat)
    (hdim : ∀ s : String, (embed s).length = D)
    (hne : readAndChunk entries ≠ []) :
    ∃ scored : List SearchResult,
      scoreAll sqrt (embed query)
        (encodeBatched embed ((readAndChunk entries).map fun c => c.text))
        (readAndChunk entries) = some scored ∧
      scored.length = (readAndChunk entries).length ∧
      (sortResults scored).Perm scored ∧
      List.Pairwise (fun a b : SearchResult => b.score ≤ a.score)
        (sortResults scored) ∧
      sortResults scored ≠ [] ∧
      runSearch embed sqrt query limit entries =
        RunOutcome.table (selectTop limit (sortResults scored)) ∧
      runSearch embed sqrt query limit entries ≠ RunOutcome.noMatches := by
  have hzip : (((readAndChunk entries).map fun c => c.text).map embed).zip
      (readAndChunk entries) =
      (readAndChunk entries).map fun c => ((embed ∘ fun x => x.text) c, c) := by
    rw [List.map_map]
    exact zip_map_self _ _
  have hall : ∀ p ∈ (((readAndChunk entries).map fun c => c.text).map embed).zip
      (readAndChunk entries),
      ((cosine_similarity sqrt (embed query) p.1).map fun s =>
        SearchResult.mk s p.2.path p.2.text).isSome := by
    intro p hp
    rw [hzip] at hp
    obtain ⟨c, _hc, rfl⟩ := List.mem_map.mp hp
    have hlen : (embed query).length = (embed c.text).length := by
      rw [hdim, hdim]
    show ((cosine_similarity sqrt (embed query) (embed c.text)).map fun s =>
      SearchResult.mk s c.path c.text).isSome = true
    rw [cosine_similarity, if_pos hlen]
    rfl
  obtain ⟨scored, hscored, hlen⟩ :=
    mapM'_option_length _ ((((readAndChunk entries).map fun c => c.text).map embed).zip
      (readAndChunk entries)) hall
  have hscoreAll : scoreAll sqrt (embed query)
      (encodeBatched embed ((readAndChunk entries).map fun c => c.text))
      (readAndChunk entries) = some scored := by
    rw [scoreAll, encodeBatched_eq_map, ← List.mapM'_eq_mapM]
    exact hscored
  have hlen' : scored.length = (readAndChunk entries).length := by
    rw [hlen, hzip, List.length_map]
  have hsortlen : (sortResults scored).length = (readAndChunk entries).length := by
    rw [(sortResults_perm scored).length_eq, hlen']
  have hsortne : sortResults scored ≠ [] := by
    intro hnil
    rw [hnil] at hsortlen
    exact hne (List.length_eq_zero.mp hsortlen.symm)
  have hempty : (readAndChunk entries).isEmpty = false :=
    List.isEmpty_eq_false.mpr hne
  have hsortempty : (sortResults scored).isEmpty = false :=
    List.isEmpty_eq_false.mpr hsortne
  have hrun : runSearch embed sqrt query limit entries =
      RunOutcome.table (selectTop limit (sortResults scored)) := by
    rw [runSearch, hempty]
    simp only [Bool.false_eq_true, if_false]
    rw [hscoreAll]
    show (if (sortResults scored).isEmpty = true then RunOutcome.noMatches
      else RunOutcome.table (selectTop limit (sortResults scored))) = _
    rw [hsortempty]
    rfl
  exact ⟨scored, hscoreAll, hlen', sortResults_perm scored, sortResults_sorted scored,
    hsortne, hrun, by rw [hrun]; exact fun hh => RunOutcome.noConfusion hh⟩

/-- Witness for C9 on a directory with one txt file of two words and a
one-dimensional embedding provider. -/
theorem results_cover_all_chunks_witness :
    ∃ scored : List SearchResult,
      scoreAll (fun x => x) ((fun _ : String => [(1 : ℚ)]) "alpha")
        (encodeBatched (fun _ : String => [(1 : ℚ)])
          ((readAndChunk [FileEntry.mk true (some "txt") "alpha beta" "/a.txt"]).map
            fun c => c.text))
        (readAndChunk [FileEntry.mk true (some "txt") "alpha beta" "/a.txt"]) =
          some scored ∧
      scored.length =
        (readAndChunk [FileEntry.mk true (some "txt") "alpha beta" "/a.txt"]).length ∧
      (sortResults scored).Perm scored ∧
      List.Pairwise (fun a b : SearchResult => b.score ≤ a.score)
        (sortResults scored) ∧
      sortResults scored ≠ [] ∧
      runSearch (fun _ : String => [(1 : ℚ)]) (fun x => x) "alpha" 10
        [FileEntry.mk true (some "txt") "alpha beta" "/a.txt"] =
        RunOutcome.table (selectTop 10 (sortResults scored)) ∧
      runSearch (fun _ : String => [(1 : ℚ)]) (fun x => x) "alpha" 10
        [FileEntry.mk true (some "txt") "alpha beta" "/a.txt"] ≠
        RunOutcome.noMatches :=
  results_cover_all_chunks (fun _ => [(1 : ℚ)]) (fun x => x) "alpha" 10
    [FileEntry.mk true (some "txt") "alpha beta" "/a.txt"] 1 (fun _ => rfl)
    (by decide)

/-- main.rs lines 35-44 (PATH_ENCODE_SET): the AsciiSet handed to
utf8_percent_encode, as a predicate on byte values — percent_encoding's
CONTROLS (the C0 range 0x00-0x1F and DEL 0x7F) plus space, double quote,
angle brackets, question mark, backtick, the two braces and the hash sign. -/
def inPathEncodeSet (b : Nat) : Bool :=
  decide (b < 0x20) || decide (b = 0x7f) || decide (b = 0x20) || decide (b = 0x22) ||
  decide (b = 0x3c) || decide (b = 0x3e) || decide (b = 0x3f) || decide (b = 0x60) ||
  decide (b = 0x7b) || decide (b = 0x7d) || decide (b = 0x23)

/-- The byte-level escaping decision of percent_encoding::utf8_percent_encode
(crate percent-encoding 2.x, AsciiSet::should_percent_encode), as applied by
format_path_for_terminal at main.rs line 262: a byte of the UTF-8 path string
is percent-escaped iff it is non-ASCII or belongs to the AsciiSet.  Every byte
of a non-ASCII character is ≥ 0x80, so a character is escaped iff it is
non-ASCII or is an ASCII character of the set. -/
def shouldPercentEncode (b : Nat) : Bool :=
  decide (0x80 ≤ b) || inPathEncodeSet b

/-- The escape set stated by the claim, read literally from its words: control
characters (C0 and DEL), space, double quote, the two angle brackets, the
question mark, the backtick, the two braces and the hash sign — and, per the
claim, nothing else. -/
def claimedEscapeSet (b : Nat) : Bool :=
  decide (b < 0x20) || decide (b = 0x7f) || decide (b = 0x20) || decide (b = 0x22) ||
  decide (b = 0x3c) || decide (b = 0x3e) || decide (b = 0x3f) || decide (b = 0x60) ||
  decide (b = 0x7b) || decide (b = 0x7d) || decide (b = 0x23)

/-- Counterexample to claim C10 as stated: byte 0xC3 — the first UTF-8 byte of
many accented characters that occur in file paths — is percent-escaped by the
displayed file reference although it is outside the claimed escape set, so the
claimed set does not cover everything that is escaped. -/
theorem path_escape_set_counterexample :
    shouldPercentEncode 0xC3 = true ∧ claimedEscapeSet 0xC3 = false := by
  decide

/-- Claim C10 as amended: a byte is percent-escaped in the displayed file
reference iff it belongs to the claimed set (control characters, space,
double quote, angle brackets, question mark, backtick, braces, hash) or is a
non-ASCII byte; restricted to ASCII bytes the escaped set is exactly the
claimed set. -/
theorem path_escape_set_amended (b : Nat) (_hb : b < 256) :
    shouldPercentEncode b = (claimedEscapeSet b || decide (0x80 ≤ b)) ∧
    (b < 0x80 → shouldPercentEncode b = claimedEscapeSet b) := by
  constructor
  · show (decide (0x80 ≤ b) || inPathEncodeSet b) = (claimedEscapeSet b || decide (0x80 ≤ b))
    rw [Bool.or_comm]
    rfl
  · intro h
    show (decide (0x80 ≤ b) || inPathEncodeSet b) = claimedEscapeSet b
    rw [decide_eq_false (by omega : ¬ 0x80 ≤ b), Bool.false_or]
    rfl

/-- Witness for the amended C10 at the ASCII byte of the letter A and at the
non-ASCII byte 0xC3. -/
theorem path_escape_set_amended_witness :
    (shouldPercentEncode 0x41 = (claimedEscapeSet 0x41 || decide (0x80 ≤ 0x41))) ∧
    (shouldPercentEncode 0xC3 = (claimedEscapeSet 0xC3 || decide (0x80 ≤ 0xC3))) :=
  ⟨(path_escape_set_amended 0x41 (by decide)).1,
    (path_escape_set_amended 0xC3 (by decide)).1⟩

end Sff
